import Mathlib

/-!
Verification of the P-384 arithmetic core `crypto/ec/gfp_p384.c`.

The source file implements field-element addition and Montgomery
multiplication for the NIST P-384 prime field (modulus `Q`) and Montgomery
multiplication for the scalar field (modulus `N`, the group order), on top
of a generic limb-arithmetic collaborator (`bn_add_words`, `bn_sub_words`,
`bn_cmp_words`, `bn_mul_mont`) and a constant-time selection helper
(`constant_time_select_size_t`).  Elements are little-limb-endian arrays of
`P384_LIMBS` machine-word limbs; we model the 64-bit configuration, where
`GFp_Limb = BN_ULONG = uint64_t`, `P384_LIMBS = 6`, and
`TOBN(hi, lo) = hi << 32 | lo`.

Limbs are modelled as natural numbers below `2 ^ 64`, elements as lists of
limbs, and the value of an element is its little-endian radix-`2 ^ 64`
evaluation `limbsVal`.
-/

namespace GFp384

/-- Bit width of one limb (`GFp_Limb` / `BN_ULONG` on a 64-bit target). -/
def LIMB_BITS : Nat := 64

/-- The radix of the limb representation, `2 ^ 64`. -/
def limbBase : Nat := 2 ^ LIMB_BITS

/-- `P384_LIMBS`: number of limbs of an element, `384 / LIMB_BITS = 6`. -/
def P384_LIMBS : Nat := 6

/-- Little-limb-endian value of a limb array. -/
def limbsVal : List Nat → Nat
  | [] => 0
  | l :: ls => l + limbBase * limbsVal ls

/-- Every limb of the array fits in the machine word. -/
def limbsBounded (a : List Nat) : Prop := ∀ l ∈ a, l < limbBase

instance limbsBounded_decidable (a : List Nat) : Decidable (limbsBounded a) :=
  List.decidableBAll _ a

/-- The field prime `Q` of P-384, as declared in `gfp_p384.c` (six 64-bit
limbs, least significant first, each limb written as `TOBN(hi, lo)`). -/
def Q : List Nat :=
  [0x00000000ffffffff, 0xffffffff00000000, 0xfffffffffffffffe,
   0xffffffffffffffff, 0xffffffffffffffff, 0xffffffffffffffff]

/-- The group order `N` of P-384, as declared in `gfp_p384.c`. -/
def N : List Nat :=
  [0xecec196accc52973, 0x581a0db248b0a77a, 0xc7634d81f4372ddf,
   0xffffffffffffffff, 0xffffffffffffffff, 0xffffffffffffffff]

/-- The Montgomery constant `Q_N0` declared inside `elem_mul_mont`:
`BN_MONT_CTX_N0(0x1, 0x1) = TOBN(0x1, 0x1)` on a 64-bit target. -/
def Q_N0 : Nat := 0x0000000100000001

/-- The Montgomery constant `N_N0` declared inside `GFp_p384_scalar_mul_mont`:
`BN_MONT_CTX_N0(0x6ed46089, 0xe88fdc45)` on a 64-bit target. -/
def N_N0 : Nat := 0x6ed46089e88fdc45

/-- Modelled from the spec: the constant-time selection helper
`constant_time_select_size_t` of `crypto/internal.h`, which is not part of
this excerpt.  Per the spec (section 4.3) the condition is an all-ones or
all-zeros machine-word mask and selection is pure bitwise mask arithmetic:
`(mask & a) | (~mask & b)`; complement of a 64-bit word is modelled as
xor with the all-ones word. -/
def constant_time_select_size_t (condition a b : Nat) : Nat :=
  (condition &&& a) ||| ((condition ^^^ (limbBase - 1)) &&& b)

/-- `copy_conditional` from `gfp_p384.c`: for each of the `P384_LIMBS` limb
positions, `r[i] = constant_time_select_size_t(condition, a[i], r[i])`. -/
def copy_conditional (r a : List Nat) (condition : Nat) : List Nat :=
  List.zipWith (fun ri ai => constant_time_select_size_t condition ai ri) r a

/-- Modelled from the spec: the limb collaborator `bn_add_words`
(fixed-width multi-limb addition with carry propagation, section 6 of the
spec), whose source is not part of this excerpt.  Returns the result limbs
together with the final carry. -/
def addWithCarry : List Nat → List Nat → Nat → List Nat × Nat
  | [], _, c => ([], c)
  | _ :: _, [], c => ([], c)
  | a :: as, b :: bs, c =>
    let t := a + b + c
    let p := addWithCarry as bs (t / limbBase)
    (t % limbBase :: p.1, p.2)

/-- `bn_add_words r a b num` as used by the core: limb addition with carry-in
zero; the second component is the returned carry. -/
def bn_add_words (a b : List Nat) : List Nat × Nat := addWithCarry a b 0

/-- Modelled from the spec: the limb collaborator `bn_sub_words`
(fixed-width multi-limb subtraction with borrow propagation, section 6 of
the spec).  Returns the result limbs together with the final borrow. -/
def subWithBorrow : List Nat → List Nat → Nat → List Nat × Nat
  | [], _, brw => ([], brw)
  | _ :: _, [], brw => ([], brw)
  | a :: as, b :: bs, brw =>
    let t := (limbBase + a) - (b + brw)
    let p := subWithBorrow as bs (if a < b + brw then 1 else 0)
    (t % limbBase :: p.1, p.2)

/-- `bn_sub_words r a b num`: limb subtraction with borrow-in zero; the
second component is the returned borrow. -/
def bn_sub_words (a b : List Nat) : List Nat × Nat := subWithBorrow a b 0

/-- Modelled from the spec: the limb collaborator `bn_cmp_words`
(magnitude comparison of two equal-length limb arrays, section 6 of the
spec): negative, zero, or positive according to the compared values. -/
def bn_cmp_words (a b : List Nat) : Int :=
  if limbsVal a < limbsVal b then -1
  else if limbsVal b < limbsVal a then 1
  else 0

/-- `GFp_p384_elem_add` from `gfp_p384.c`:
`if (!bn_add_words(r, a, b, P384_LIMBS)) { if (bn_cmp_words(r, Q, P384_LIMBS) < 0) return; }`
`(void)bn_sub_words(r, r, Q, P384_LIMBS);` -/
def GFp_p384_elem_add (a b : List Nat) : List Nat :=
  let ra := bn_add_words a b
  if ra.2 = 0 ∧ bn_cmp_words ra.1 Q < 0 then ra.1
  else (bn_sub_words ra.1 Q).1

/-- One outer iteration of word-by-word Montgomery multiplication:
absorb limb `ai` of the first operand, then eliminate the low word with the
multiplier `u` derived from the Montgomery constant `n0` and divide by the
radix. -/
def montStep (m n0 B t ai : Nat) : Nat :=
  let t1 := t + ai * B
  let u := ((t1 % limbBase) * n0) % limbBase
  (t1 + u * m) / limbBase

/-- The outer loop of word-by-word Montgomery multiplication over the limbs
of the first operand. -/
def montLoop (m n0 B : Nat) : List Nat → Nat → Nat
  | [], t => t
  | ai :: as, t => montLoop m n0 B as (montStep m n0 B t ai)

/-- Decompose a natural number into `k` little-endian limbs. -/
def natToLimbs : Nat → Nat → List Nat
  | 0, _ => []
  | k + 1, x => x % limbBase :: natToLimbs k (x / limbBase)

/-- Modelled from the spec: the generic Montgomery multiplication
collaborator `bn_mul_mont` of `crypto/bn` (sections 4.1 and 6 of the spec),
whose source is not part of this excerpt: word-by-word Montgomery reduction
parameterized by the modulus limbs `mm` and the modulus-specific constant
`n0`, followed by a final conditional subtraction of the modulus, producing
`a * b * R⁻¹ mod m` in `a.length` limbs. -/
def bn_mul_mont (a b mm : List Nat) (n0 : Nat) : List Nat :=
  let t := montLoop (limbsVal mm) n0 (limbsVal b) a 0
  natToLimbs a.length (if limbsVal mm ≤ t then t - limbsVal mm else t)

/-- `elem_mul_mont` from `gfp_p384.c`:
`bn_mul_mont(r, a, b, Q, Q_N0, P384_LIMBS)`. -/
def elem_mul_mont (a b : List Nat) : List Nat := bn_mul_mont a b Q Q_N0

/-- `GFp_p384_elem_mul_mont` from `gfp_p384.c`: delegates to
`elem_mul_mont`. -/
def GFp_p384_elem_mul_mont (a b : List Nat) : List Nat := elem_mul_mont a b

/-- `GFp_p384_scalar_mul_mont` from `gfp_p384.c`:
`bn_mul_mont(r, a, b, N, N_N0, P384_LIMBS)`. -/
def GFp_p384_scalar_mul_mont (a b : List Nat) : List Nat :=
  bn_mul_mont a b N N_N0

/-- `R⁻¹ mod Q` for the Montgomery radix `R = 2 ^ 384`. -/
def RinvQ : Nat :=
  0x14000000140000000c00000002fffffffcfffffffafffffffbfffffffdffffffebffffffd8ffffffe100000006

/-- `R⁻¹ mod N` for the Montgomery radix `R = 2 ^ 384`. -/
def RinvN : Nat :=
  0x355ca87de39dbb1fa150206ce4f194ac78d4ba5866d61787e29f9fb70a9da219d26d4aeba664edb0610ae855f2c0d911


lemma limbBase_eq : limbBase = 18446744073709551616 := by
  norm_num [limbBase, LIMB_BITS]

lemma limbBase_pos : 0 < limbBase := by
  rw [limbBase_eq]; norm_num

lemma limbsVal_lt (a : List Nat) (ha : limbsBounded a) :
    limbsVal a < limbBase ^ a.length := by
  induction a with
  | nil => simp [limbsVal]
  | cons x xs ih =>
    have hx : x < limbBase := ha x (List.mem_cons_self x xs)
    have hxs : limbsVal xs < limbBase ^ xs.length :=
      ih (fun l hl => ha l (List.mem_cons_of_mem x hl))
    have h1 : limbBase * limbsVal xs + limbBase ≤ limbBase * limbBase ^ xs.length := by
      have := Nat.succ_le_of_lt hxs
      calc limbBase * limbsVal xs + limbBase
          = limbBase * (limbsVal xs + 1) := by ring
        _ ≤ limbBase * limbBase ^ xs.length := Nat.mul_le_mul_left _ this
    simp only [limbsVal, List.length_cons, pow_succ]
    have : x + limbBase * limbsVal xs < limbBase * limbsVal xs + limbBase := by omega
    calc x + limbBase * limbsVal xs < limbBase * limbsVal xs + limbBase := this
      _ ≤ limbBase * limbBase ^ xs.length := h1
      _ = limbBase ^ xs.length * limbBase := by ring

lemma addWithCarry_spec :
    ∀ (a b : List Nat) (c : Nat), a.length = b.length →
    limbsBounded a → limbsBounded b → c ≤ 1 →
    limbsVal (addWithCarry a b c).1 + limbBase ^ a.length * (addWithCarry a b c).2
      = limbsVal a + limbsVal b + c
    ∧ (addWithCarry a b c).2 ≤ 1
    ∧ (addWithCarry a b c).1.length = a.length
    ∧ limbsBounded (addWithCarry a b c).1 := by
  intro a
  induction a with
  | nil =>
    intro b c hl _ _ hc
    have : b = [] := List.eq_nil_of_length_eq_zero hl.symm
    subst this
    simp [addWithCarry, limbsVal, limbsBounded, hc]
  | cons x xs ih =>
    intro b c hl ha hb hc
    cases b with
    | nil => simp at hl
    | cons y ys =>
      have hx : x < limbBase := ha x (List.mem_cons_self x xs)
      have hy : y < limbBase := hb y (List.mem_cons_self y ys)
      have hxs : limbsBounded xs := fun l hl' => ha l (List.mem_cons_of_mem x hl')
      have hys : limbsBounded ys := fun l hl' => hb l (List.mem_cons_of_mem y hl')
      have hl' : xs.length = ys.length := by simpa using hl
      have hcar : (x + y + c) / limbBase ≤ 1 := by
        rw [limbBase_eq] at hx hy ⊢
        omega
      obtain ⟨ih1, ih2, ih3, ih4⟩ := ih ys ((x + y + c) / limbBase) hl' hxs hys hcar
      have hdm := Nat.div_add_mod (x + y + c) limbBase
      constructor
      · simp only [addWithCarry, limbsVal, List.length_cons, pow_succ]
        calc (x + y + c) % limbBase
              + limbBase * limbsVal (addWithCarry xs ys ((x + y + c) / limbBase)).1
              + limbBase ^ xs.length * limbBase
                * (addWithCarry xs ys ((x + y + c) / limbBase)).2
            = (x + y + c) % limbBase
              + limbBase * (limbsVal (addWithCarry xs ys ((x + y + c) / limbBase)).1
                + limbBase ^ xs.length
                  * (addWithCarry xs ys ((x + y + c) / limbBase)).2) := by ring
          _ = (x + y + c) % limbBase
              + limbBase * (limbsVal xs + limbsVal ys + (x + y + c) / limbBase) := by
                rw [ih1]
          _ = (limbBase * ((x + y + c) / limbBase) + (x + y + c) % limbBase)
              + limbBase * limbsVal xs + limbBase * limbsVal ys := by ring
          _ = (x + y + c) + limbBase * limbsVal xs + limbBase * limbsVal ys := by
                rw [hdm]
          _ = x + limbBase * limbsVal xs + (y + limbBase * limbsVal ys) + c := by ring
      · refine ⟨ih2, by simp [addWithCarry, ih3], ?_⟩
        intro l hl''
        simp only [addWithCarry, List.mem_cons] at hl''
        rcases hl'' with h | h
        · subst h; exact Nat.mod_lt _ limbBase_pos
        · exact ih4 l h

lemma subWithBorrow_spec :
    ∀ (a b : List Nat) (brw : Nat), a.length = b.length →
    limbsBounded a → limbsBounded b → brw ≤ 1 →
    limbsVal (subWithBorrow a b brw).1 + limbsVal b + brw
      = limbsVal a + limbBase ^ a.length * (subWithBorrow a b brw).2
    ∧ (subWithBorrow a b brw).2 ≤ 1
    ∧ (subWithBorrow a b brw).1.length = a.length
    ∧ limbsBounded (subWithBorrow a b brw).1 := by
  intro a
  induction a with
  | nil =>
    intro b brw hl _ _ hbr
    have : b = [] := List.eq_nil_of_length_eq_zero hl.symm
    subst this
    simp [subWithBorrow, limbsVal, limbsBounded, hbr]
  | cons x xs ih =>
    intro b brw hl ha hb hbr
    cases b with
    | nil => simp at hl
    | cons y ys =>
      have hx : x < limbBase := ha x (List.mem_cons_self x xs)
      have hy : y < limbBase := hb y (List.mem_cons_self y ys)
      have hxs : limbsBounded xs := fun l hl' => ha l (List.mem_cons_of_mem x hl')
      have hys : limbsBounded ys := fun l hl' => hb l (List.mem_cons_of_mem y hl')
      have hl' : xs.length = ys.length := by simpa using hl
      have hbr' : (if x < y + brw then 1 else 0) ≤ 1 := by split <;> omega
      obtain ⟨ih1, ih2, ih3, ih4⟩ := ih ys (if x < y + brw then 1 else 0) hl' hxs hys hbr'
      have hlimb : (limbBase + x - (y + brw)) % limbBase + y + brw
          = x + limbBase * (if x < y + brw then 1 else 0) := by
        rw [limbBase_eq] at hx hy ⊢
        split <;> omega
      constructor
      · simp only [subWithBorrow, limbsVal, List.length_cons, pow_succ]
        calc (limbBase + x - (y + brw)) % limbBase
              + limbBase * limbsVal (subWithBorrow xs ys (if x < y + brw then 1 else 0)).1
              + (y + limbBase * limbsVal ys) + brw
            = ((limbBase + x - (y + brw)) % limbBase + y + brw)
              + limbBase * (limbsVal (subWithBorrow xs ys (if x < y + brw then 1 else 0)).1
                + limbsVal ys) := by ring
          _ = (x + limbBase * (if x < y + brw then 1 else 0))
              + limbBase * (limbsVal (subWithBorrow xs ys (if x < y + brw then 1 else 0)).1
                + limbsVal ys) := by rw [hlimb]
          _ = x + limbBase * (limbsVal (subWithBorrow xs ys (if x < y + brw then 1 else 0)).1
                + limbsVal ys + (if x < y + brw then 1 else 0)) := by ring
          _ = x + limbBase * (limbsVal xs + limbBase ^ xs.length
                * (subWithBorrow xs ys (if x < y + brw then 1 else 0)).2) := by
                rw [ih1]
          _ = x + limbBase * limbsVal xs + limbBase ^ xs.length * limbBase
                * (subWithBorrow xs ys (if x < y + brw then 1 else 0)).2 := by ring
      · refine ⟨ih2, by simp [subWithBorrow, ih3], ?_⟩
        intro l hl''
        simp only [subWithBorrow, List.mem_cons] at hl''
        rcases hl'' with h | h
        · subst h; exact Nat.mod_lt _ limbBase_pos
        · exact ih4 l h

lemma bn_cmp_words_neg_iff (a b : List Nat) :
    bn_cmp_words a b < 0 ↔ limbsVal a < limbsVal b := by
  simp only [bn_cmp_words]
  split_ifs with h1 h2
  · simpa using h1
  · constructor
    · intro h; omega
    · intro h; omega
  · constructor
    · intro h; omega
    · intro h; omega


lemma Qval_eq : limbsVal Q =
    39402006196394479212279040100143613805079739270465446667948293404245721771496870329047266088258938001861606973112319 := by
  rfl

lemma Nval_eq : limbsVal N =
    39402006196394479212279040100143613805079739270465446667946905279627659399113263569398956308152294913554433653942643 := by
  rfl

lemma limbBase_pow6 : limbBase ^ (6 : Nat) =
    39402006196394479212279040100143613805079739270465446667948293404245721771497210611414266254884915640806627990306816 := by
  rw [limbBase_eq]; norm_num

lemma Q_bounded : limbsBounded Q := by decide

lemma Q_length6 : Q.length = 6 := by rfl

/-- Core correctness of `GFp_p384_elem_add`: on bounded six-limb inputs with
values below `Q`, the result is the six-limb representation of
`(a + b) mod Q`, and it keeps all the representation invariants. -/
lemma elem_add_correct (a b : List Nat)
    (hla : a.length = P384_LIMBS) (hlb : b.length = P384_LIMBS)
    (ha : limbsBounded a) (hb : limbsBounded b)
    (hva : limbsVal a < limbsVal Q) (hvb : limbsVal b < limbsVal Q) :
    limbsVal (GFp_p384_elem_add a b) = (limbsVal a + limbsVal b) % limbsVal Q
    ∧ limbsVal (GFp_p384_elem_add a b) < limbsVal Q
    ∧ (GFp_p384_elem_add a b).length = P384_LIMBS
    ∧ limbsBounded (GFp_p384_elem_add a b) := by
  have hla6 : a.length = 6 := hla
  have hlb6 : b.length = 6 := hlb
  obtain ⟨h1, h2, h3, h4⟩ :=
    addWithCarry_spec a b 0 (by rw [hla6, hlb6]) ha hb (by omega)
  rw [hla6, limbBase_pow6] at h1
  have hrlt : limbsVal (addWithCarry a b 0).1 < limbBase ^ (addWithCarry a b 0).1.length :=
    limbsVal_lt _ h4
  rw [h3, hla6, limbBase_pow6] at hrlt
  rw [Qval_eq] at hva hvb
  simp only [GFp_p384_elem_add, bn_add_words, bn_sub_words]
  split_ifs with hcond
  · have hc0 : (addWithCarry a b 0).2 = 0 := hcond.1
    have hlt : limbsVal (addWithCarry a b 0).1 < limbsVal Q :=
      (bn_cmp_words_neg_iff _ _).mp hcond.2
    rw [Qval_eq] at hlt
    refine ⟨?_, ?_, by rw [h3, hla6]; rfl, h4⟩
    · rw [Qval_eq]
      omega
    · rw [Qval_eq]
      omega
  · obtain ⟨s1, s2, s3, s4⟩ :=
      subWithBorrow_spec (addWithCarry a b 0).1 Q 0
        (by rw [h3, hla6, Q_length6]) h4 Q_bounded (by omega)
    rw [h3, hla6, limbBase_pow6, Qval_eq] at s1
    have hslt : limbsVal (subWithBorrow (addWithCarry a b 0).1 Q 0).1
        < limbBase ^ (subWithBorrow (addWithCarry a b 0).1 Q 0).1.length :=
      limbsVal_lt _ s4
    rw [s3, h3, hla6, limbBase_pow6] at hslt
    have hnot : ¬((addWithCarry a b 0).2 = 0) ∨
        ¬(bn_cmp_words (addWithCarry a b 0).1 Q < 0) := by tauto
    have hcases : (addWithCarry a b 0).2 ≠ 0 ∨
        limbsVal Q ≤ limbsVal (addWithCarry a b 0).1 := by
      rcases hnot with h | h
      · exact Or.inl h
      · exact Or.inr (by
          have := (bn_cmp_words_neg_iff (addWithCarry a b 0).1 Q)
          omega)
    rw [Qval_eq] at hcases
    refine ⟨?_, ?_, by rw [s3, h3, hla6]; rfl, s4⟩
    · rw [Qval_eq]
      omega
    · rw [Qval_eq]
      omega


lemma montStep_mul (m n0 B t ai : Nat) (hn0 : (m * n0 + 1) % limbBase = 0) :
    ∃ u, montStep m n0 B t ai * limbBase = t + ai * B + u * m := by
  have hdvd1 : limbBase ∣ m * n0 + 1 := Nat.dvd_of_mod_eq_zero hn0
  refine ⟨(((t + ai * B) % limbBase) * n0) % limbBase, ?_⟩
  have hmod : (t + ai * B) + ((((t + ai * B) % limbBase) * n0) % limbBase) * m
      ≡ 0 [MOD limbBase] := by
    have h1 : ((t + ai * B) % limbBase) * n0 ≡ (t + ai * B) * n0 [MOD limbBase] :=
      (Nat.mod_modEq (t + ai * B) limbBase).mul_right n0
    have h2 : (((t + ai * B) % limbBase) * n0) % limbBase
        ≡ (t + ai * B) * n0 [MOD limbBase] :=
      (Nat.mod_modEq _ limbBase).trans h1
    have h3 : ((((t + ai * B) % limbBase) * n0) % limbBase) * m
        ≡ (t + ai * B) * n0 * m [MOD limbBase] := h2.mul_right m
    have h4 : (t + ai * B) + ((((t + ai * B) % limbBase) * n0) % limbBase) * m
        ≡ (t + ai * B) + (t + ai * B) * n0 * m [MOD limbBase] :=
      (Nat.ModEq.refl (t + ai * B)).add h3
    have h5 : (t + ai * B) + (t + ai * B) * n0 * m = (t + ai * B) * (m * n0 + 1) := by
      ring
    have h6 : (t + ai * B) * (m * n0 + 1) ≡ 0 [MOD limbBase] :=
      Nat.modEq_zero_iff_dvd.mpr (Dvd.dvd.mul_left hdvd1 (t + ai * B))
    exact h4.trans (h5 ▸ h6)
  have hdvd : limbBase ∣ (t + ai * B) + ((((t + ai * B) % limbBase) * n0) % limbBase) * m :=
    Nat.modEq_zero_iff_dvd.mp hmod
  simp only [montStep]
  exact Nat.div_mul_cancel hdvd

lemma montStep_lt (m n0 B t ai : Nat) (ht : t < m + B) (hai : ai < limbBase) :
    montStep m n0 B t ai < m + B := by
  simp only [montStep]
  have hu : (((t + ai * B) % limbBase) * n0) % limbBase < limbBase :=
    Nat.mod_lt _ limbBase_pos
  rw [Nat.div_lt_iff_lt_mul limbBase_pos]
  have hab : ai * B ≤ (limbBase - 1) * B := Nat.mul_le_mul_right _ (by omega)
  have hum : (((t + ai * B) % limbBase) * n0) % limbBase * m ≤ (limbBase - 1) * m :=
    Nat.mul_le_mul_right _ (by omega)
  have hexp : (limbBase - 1) * B + (limbBase - 1) * m + (B + m) = (m + B) * limbBase := by
    obtain ⟨k, hk⟩ : ∃ k, limbBase = k + 1 := ⟨limbBase - 1, by have := limbBase_pos; omega⟩
    rw [hk]
    simp only [Nat.add_sub_cancel]
    ring
  have := limbBase_pos
  omega

lemma montLoop_spec (m n0 B : Nat) (hn0 : (m * n0 + 1) % limbBase = 0) :
    ∀ (as : List Nat) (t : Nat), limbsBounded as → t < m + B →
    montLoop m n0 B as t < m + B ∧
    montLoop m n0 B as t * limbBase ^ as.length ≡ t + limbsVal as * B [MOD m] := by
  intro as
  induction as with
  | nil =>
    intro t _ ht
    refine ⟨ht, ?_⟩
    simp only [montLoop, limbsVal, List.length_nil, pow_zero, mul_one, zero_mul, add_zero]
    exact Nat.ModEq.refl t
  | cons ai as ih =>
    intro t hb ht
    have hai : ai < limbBase := hb ai (List.mem_cons_self ai as)
    have hbs : limbsBounded as := fun l hl => hb l (List.mem_cons_of_mem ai hl)
    have hstep := montStep_lt m n0 B t ai ht hai
    obtain ⟨ih1, ih2⟩ := ih (montStep m n0 B t ai) hbs hstep
    refine ⟨ih1, ?_⟩
    obtain ⟨u, hu⟩ := montStep_mul m n0 B t ai hn0
    have e1 : montLoop m n0 B (ai :: as) t = montLoop m n0 B as (montStep m n0 B t ai) := rfl
    have e2 : (ai :: as).length = as.length + 1 := rfl
    rw [e1, e2, pow_succ, ← mul_assoc]
    have h3 : montLoop m n0 B as (montStep m n0 B t ai) * limbBase ^ as.length * limbBase
        ≡ (montStep m n0 B t ai + limbsVal as * B) * limbBase [MOD m] :=
      ih2.mul_right limbBase
    have h4 : (montStep m n0 B t ai + limbsVal as * B) * limbBase
        = (t + ai * B + u * m) + limbsVal as * B * limbBase := by
      rw [add_mul, hu]
    have h5 : (t + ai * B + u * m) + limbsVal as * B * limbBase
        ≡ (t + ai * B + 0) + limbsVal as * B * limbBase [MOD m] := by
      have hum : u * m ≡ 0 [MOD m] := Nat.modEq_zero_iff_dvd.mpr (dvd_mul_left m u)
      exact (((Nat.ModEq.refl (t + ai * B)).add hum)).add (Nat.ModEq.refl _)
    have h6 : (t + ai * B + 0) + limbsVal as * B * limbBase
        = t + limbsVal (ai :: as) * B := by
      simp only [limbsVal]
      ring
    calc montLoop m n0 B as (montStep m n0 B t ai) * limbBase ^ as.length * limbBase
        ≡ (montStep m n0 B t ai + limbsVal as * B) * limbBase [MOD m] := h3
      _ = (t + ai * B + u * m) + limbsVal as * B * limbBase := h4
      _ ≡ (t + ai * B + 0) + limbsVal as * B * limbBase [MOD m] := h5
      _ = t + limbsVal (ai :: as) * B := h6

lemma natToLimbs_spec : ∀ (k x : Nat),
    limbsVal (natToLimbs k x) = x % limbBase ^ k
    ∧ (natToLimbs k x).length = k
    ∧ limbsBounded (natToLimbs k x) := by
  intro k
  induction k with
  | zero =>
    intro x
    refine ⟨?_, by simp [natToLimbs], by simp [natToLimbs, limbsBounded]⟩
    simp only [natToLimbs, limbsVal, pow_zero]
    exact (Nat.mod_one x).symm
  | succ k ih =>
    intro x
    obtain ⟨ih1, ih2, ih3⟩ := ih (x / limbBase)
    refine ⟨?_, by simp [natToLimbs, ih2], ?_⟩
    · simp only [natToLimbs, limbsVal, ih1]
      have hps : limbBase ^ (k + 1) = limbBase * limbBase ^ k := by
        rw [pow_succ]; ring
      rw [hps]
      have h2 : x % (limbBase * limbBase ^ k) / limbBase = x / limbBase % limbBase ^ k :=
        Nat.mod_mul_right_div_self x limbBase (limbBase ^ k)
      have h3 : x % (limbBase * limbBase ^ k) % limbBase = x % limbBase :=
        Nat.mod_mod_of_dvd x (dvd_mul_right limbBase (limbBase ^ k))
      have h4 := Nat.div_add_mod (x % (limbBase * limbBase ^ k)) limbBase
      rw [h2, h3] at h4
      rw [← h4]
      exact Nat.add_comm _ _
    · intro l hl
      simp only [natToLimbs, List.mem_cons] at hl
      rcases hl with h | h
      · subst h; exact Nat.mod_lt _ limbBase_pos
      · exact ih3 l h


/-- Full correctness of the modelled `bn_mul_mont` on six-limb operands:
given a correctly paired modulus/constant (`m * n0 ≡ -1` mod the limb
radix), the result is below the modulus and is the Montgomery product
`a * b * R⁻¹ mod m` (expressed via multiplication by `R = limbBase ^ 6`). -/
lemma bn_mul_mont_spec (a b mm : List Nat) (n0 : Nat)
    (hla : a.length = 6) (hlm : mm.length = 6)
    (ha : limbsBounded a) (hm : limbsBounded mm)
    (hvb : limbsVal b < limbsVal mm)
    (hn0 : (limbsVal mm * n0 + 1) % limbBase = 0) :
    limbsVal (bn_mul_mont a b mm n0) < limbsVal mm
    ∧ limbsVal (bn_mul_mont a b mm n0) * limbBase ^ 6
        ≡ limbsVal a * limbsVal b [MOD limbsVal mm]
    ∧ (bn_mul_mont a b mm n0).length = 6
    ∧ limbsBounded (bn_mul_mont a b mm n0) := by
  have hm0 : 0 < limbsVal mm := by omega
  obtain ⟨hT, hTmod⟩ :=
    montLoop_spec (limbsVal mm) n0 (limbsVal b) hn0 a 0 ha (by omega)
  rw [hla] at hTmod
  have hvmle : limbsVal mm ≤ limbBase ^ 6 := by
    have := limbsVal_lt mm hm
    rw [hlm] at this
    omega
  simp only [bn_mul_mont, hla]
  obtain ⟨n1, n2, n3⟩ := natToLimbs_spec 6
    (if limbsVal mm ≤ montLoop (limbsVal mm) n0 (limbsVal b) a 0
     then montLoop (limbsVal mm) n0 (limbsVal b) a 0 - limbsVal mm
     else montLoop (limbsVal mm) n0 (limbsVal b) a 0)
  have hXlt : (if limbsVal mm ≤ montLoop (limbsVal mm) n0 (limbsVal b) a 0
      then montLoop (limbsVal mm) n0 (limbsVal b) a 0 - limbsVal mm
      else montLoop (limbsVal mm) n0 (limbsVal b) a 0) < limbsVal mm := by
    split <;> omega
  have hXval : limbsVal (natToLimbs 6
      (if limbsVal mm ≤ montLoop (limbsVal mm) n0 (limbsVal b) a 0
       then montLoop (limbsVal mm) n0 (limbsVal b) a 0 - limbsVal mm
       else montLoop (limbsVal mm) n0 (limbsVal b) a 0))
      = (if limbsVal mm ≤ montLoop (limbsVal mm) n0 (limbsVal b) a 0
         then montLoop (limbsVal mm) n0 (limbsVal b) a 0 - limbsVal mm
         else montLoop (limbsVal mm) n0 (limbsVal b) a 0) := by
    rw [n1]
    exact Nat.mod_eq_of_lt (by omega)
  have hXmod : (if limbsVal mm ≤ montLoop (limbsVal mm) n0 (limbsVal b) a 0
      then montLoop (limbsVal mm) n0 (limbsVal b) a 0 - limbsVal mm
      else montLoop (limbsVal mm) n0 (limbsVal b) a 0)
      ≡ montLoop (limbsVal mm) n0 (limbsVal b) a 0 [MOD limbsVal mm] := by
    split_ifs with h
    · exact (Nat.mod_eq_sub_mod h).symm
    · exact Nat.ModEq.refl _
  refine ⟨by rw [hXval]; exact hXlt, ?_, n2, n3⟩
  rw [hXval]
  have h1 := hXmod.mul_right (limbBase ^ 6)
  have h2 := h1.trans hTmod
  simpa using h2

/-- If `x < m`, `x * R ≡ y (mod m)` and `rinv` is an inverse of `R` mod `m`,
then `x` is exactly `y * rinv mod m`. -/
lemma mont_eq_of_modeq (m R rinv x y : Nat) (hm : 1 < m) (hx : x < m)
    (hR : (rinv * R) % m = 1) (hmod : x * R ≡ y [MOD m]) :
    x = (y * rinv) % m := by
  have h2 : R * rinv ≡ 1 [MOD m] := by
    show (R * rinv) % m = 1 % m
    rw [mul_comm R rinv, hR, Nat.mod_eq_of_lt hm]
  have h3 : x * (R * rinv) ≡ y * rinv [MOD m] := by
    have := hmod.mul_right rinv
    rwa [mul_assoc] at this
  have h4 : x * (R * rinv) ≡ x * 1 [MOD m] := h2.mul_left x
  have h5 : x ≡ y * rinv [MOD m] := by
    have := (h4.symm.trans h3)
    rwa [mul_one] at this
  calc x = x % m := (Nat.mod_eq_of_lt hx).symm
    _ = (y * rinv) % m := h5

lemma RinvQ_spec : (RinvQ * limbBase ^ 6) % limbsVal Q = 1 := by decide

lemma RinvN_spec : (RinvN * limbBase ^ 6) % limbsVal N = 1 := by decide

lemma Q_N0_pairing : (limbsVal Q * Q_N0 + 1) % limbBase = 0 := by decide

lemma N_N0_pairing : (limbsVal N * N_N0 + 1) % limbBase = 0 := by decide

lemma N_bounded : limbsBounded N := by decide

lemma N_length6 : N.length = 6 := by rfl


lemma limbBase_two_pow : limbBase = 2 ^ 64 := rfl

lemma select_all_ones (a b : Nat) (ha : a < limbBase) :
    constant_time_select_size_t (limbBase - 1) a b = a := by
  simp only [constant_time_select_size_t, Nat.xor_self, Nat.zero_and, Nat.or_zero]
  rw [Nat.land_comm, limbBase_two_pow, Nat.and_pow_two_sub_one_eq_mod]
  exact Nat.mod_eq_of_lt (by rw [← limbBase_two_pow]; exact ha)

lemma select_zero (a b : Nat) (hb : b < limbBase) :
    constant_time_select_size_t 0 a b = b := by
  simp only [constant_time_select_size_t, Nat.zero_and, Nat.zero_xor, Nat.zero_or]
  rw [Nat.land_comm, limbBase_two_pow, Nat.and_pow_two_sub_one_eq_mod]
  exact Nat.mod_eq_of_lt (by rw [← limbBase_two_pow]; exact hb)

lemma copy_conditional_all_ones : ∀ (r a : List Nat), r.length = a.length →
    limbsBounded a → copy_conditional r a (limbBase - 1) = a := by
  intro r
  induction r with
  | nil =>
    intro a hl _
    have : a = [] := List.eq_nil_of_length_eq_zero hl.symm
    subst this
    rfl
  | cons x xs ih =>
    intro a hl ha
    cases a with
    | nil => simp at hl
    | cons y ys =>
      have hy : y < limbBase := ha y (List.mem_cons_self y ys)
      have hys : limbsBounded ys := fun l hl' => ha l (List.mem_cons_of_mem y hl')
      simp only [copy_conditional, List.zipWith]
      rw [select_all_ones y x hy]
      have := ih ys (by simpa using hl) hys
      simp only [copy_conditional] at this
      rw [this]

lemma copy_conditional_zero : ∀ (r a : List Nat), r.length = a.length →
    limbsBounded r → copy_conditional r a 0 = r := by
  intro r
  induction r with
  | nil =>
    intro a hl _
    have : a = [] := List.eq_nil_of_length_eq_zero hl.symm
    subst this
    rfl
  | cons x xs ih =>
    intro a hl hr
    cases a with
    | nil => simp at hl
    | cons y ys =>
      have hx : x < limbBase := hr x (List.mem_cons_self x xs)
      have hxs : limbsBounded xs := fun l hl' => hr l (List.mem_cons_of_mem x hl')
      simp only [copy_conditional, List.zipWith]
      rw [select_zero y x hx]
      have := ih ys (by simpa using hl) hxs
      simp only [copy_conditional] at this
      rw [this]

lemma copy_conditional_getD : ∀ (r a : List Nat) (c i : Nat),
    i < r.length → i < a.length →
    (copy_conditional r a c).getD i 0
      = constant_time_select_size_t c (a.getD i 0) (r.getD i 0) := by
  intro r
  induction r with
  | nil =>
    intro a c i hi _
    simp at hi
  | cons x xs ih =>
    intro a c i hi ha
    cases a with
    | nil => simp at ha
    | cons y ys =>
      cases i with
      | zero => rfl
      | succ j =>
        have h1 : j < xs.length := by simpa using hi
        have h2 : j < ys.length := by simpa using ha
        have hstep : copy_conditional (x :: xs) (y :: ys) c
            = constant_time_select_size_t c y x :: copy_conditional xs ys c := rfl
        rw [hstep]
        simpa using ih ys c j h1 h2


/-- C1: for all six-limb field elements `a`, `b` with values below `Q`,
`GFp_p384_elem_add` stores the six-limb value `(a + b) mod Q`; moreover `Q`
is subtracted from the truncated sum exactly when the full-width addition
carried out or the six-limb sum is at least `Q` (and otherwise the truncated
sum is returned unchanged). -/
theorem GFp_p384_elem_add_mod_Q (a b : List Nat)
    (hla : a.length = P384_LIMBS) (hlb : b.length = P384_LIMBS)
    (ha : limbsBounded a) (hb : limbsBounded b)
    (hva : limbsVal a < limbsVal Q) (hvb : limbsVal b < limbsVal Q) :
    limbsVal (GFp_p384_elem_add a b) = (limbsVal a + limbsVal b) % limbsVal Q
    ∧ GFp_p384_elem_add a b
        = (if (bn_add_words a b).2 ≠ 0 ∨ limbsVal Q ≤ limbsVal (bn_add_words a b).1
           then (bn_sub_words (bn_add_words a b).1 Q).1
           else (bn_add_words a b).1) := by
  refine ⟨(elem_add_correct a b hla hlb ha hb hva hvb).1, ?_⟩
  simp only [GFp_p384_elem_add]
  have hiff := bn_cmp_words_neg_iff (bn_add_words a b).1 Q
  split_ifs with h1 h2 h3
  · exfalso
    rcases h2 with hc | hge
    · exact hc h1.1
    · have := hiff.mp h1.2
      omega
  · rfl
  · rfl
  · exfalso
    push_neg at h3
    exact h1 ⟨h3.1, hiff.mpr h3.2⟩

/-- Witness for C1 at the spec's concrete scenario `a = Q - 1`, `b = 1`:
the hypotheses hold and the result is the all-zero element, the
representative of `(Q - 1 + 1) mod Q = 0`. -/
theorem GFp_p384_elem_add_mod_Q_witness :
    limbsVal [0xfffffffe, 0xffffffff00000000, 0xfffffffffffffffe,
        0xffffffffffffffff, 0xffffffffffffffff, 0xffffffffffffffff] < limbsVal Q
    ∧ limbsVal (GFp_p384_elem_add
        [0xfffffffe, 0xffffffff00000000, 0xfffffffffffffffe,
         0xffffffffffffffff, 0xffffffffffffffff, 0xffffffffffffffff]
        [1, 0, 0, 0, 0, 0])
      = (limbsVal [0xfffffffe, 0xffffffff00000000, 0xfffffffffffffffe,
          0xffffffffffffffff, 0xffffffffffffffff, 0xffffffffffffffff]
         + limbsVal [1, 0, 0, 0, 0, 0]) % limbsVal Q
    ∧ GFp_p384_elem_add
        [0xfffffffe, 0xffffffff00000000, 0xfffffffffffffffe,
         0xffffffffffffffff, 0xffffffffffffffff, 0xffffffffffffffff]
        [1, 0, 0, 0, 0, 0] = [0, 0, 0, 0, 0, 0] :=
  ⟨by decide,
   (GFp_p384_elem_add_mod_Q
      [0xfffffffe, 0xffffffff00000000, 0xfffffffffffffffe,
       0xffffffffffffffff, 0xffffffffffffffff, 0xffffffffffffffff]
      [1, 0, 0, 0, 0, 0]
      (by rfl) (by rfl) (by decide) (by decide) (by decide) (by decide)).1,
   by decide⟩

/-- C4: closure invariant of `GFp_p384_elem_add`: on six-limb inputs below
`Q` the result value is strictly below `Q`, and the representation
invariants (six limbs, each below the limb radix) are preserved. -/
theorem GFp_p384_elem_add_closure (a b : List Nat)
    (hla : a.length = P384_LIMBS) (hlb : b.length = P384_LIMBS)
    (ha : limbsBounded a) (hb : limbsBounded b)
    (hva : limbsVal a < limbsVal Q) (hvb : limbsVal b < limbsVal Q) :
    limbsVal (GFp_p384_elem_add a b) < limbsVal Q
    ∧ (GFp_p384_elem_add a b).length = P384_LIMBS
    ∧ limbsBounded (GFp_p384_elem_add a b) := by
  obtain ⟨_, h2, h3, h4⟩ := elem_add_correct a b hla hlb ha hb hva hvb
  exact ⟨h2, h3, h4⟩

/-- Witness for C4 at `a = b = Q - 1` (a case that requires the reduction
step). -/
theorem GFp_p384_elem_add_closure_witness :
    limbsVal [0xfffffffe, 0xffffffff00000000, 0xfffffffffffffffe,
        0xffffffffffffffff, 0xffffffffffffffff, 0xffffffffffffffff] < limbsVal Q
    ∧ limbsVal (GFp_p384_elem_add
        [0xfffffffe, 0xffffffff00000000, 0xfffffffffffffffe,
         0xffffffffffffffff, 0xffffffffffffffff, 0xffffffffffffffff]
        [0xfffffffe, 0xffffffff00000000, 0xfffffffffffffffe,
         0xffffffffffffffff, 0xffffffffffffffff, 0xffffffffffffffff]) < limbsVal Q :=
  ⟨by decide,
   (GFp_p384_elem_add_closure
      [0xfffffffe, 0xffffffff00000000, 0xfffffffffffffffe,
       0xffffffffffffffff, 0xffffffffffffffff, 0xffffffffffffffff]
      [0xfffffffe, 0xffffffff00000000, 0xfffffffffffffffe,
       0xffffffffffffffff, 0xffffffffffffffff, 0xffffffffffffffff]
      (by rfl) (by rfl) (by decide) (by decide) (by decide) (by decide)).1⟩

/-- C10: whenever `GFp_p384_elem_add` executes the final subtraction of `Q`
(the addition carried out of six limbs, or the truncated sum is at least
`Q`), the exact value `a + b - Q` fits in six limbs, the stored six-limb
result is exactly `a + b - Q`, and the borrow out of `bn_sub_words` — which
the code discards — equals the carry out of the addition, so they cancel. -/
theorem GFp_p384_elem_add_borrow_cancels (a b : List Nat)
    (hla : a.length = P384_LIMBS) (hlb : b.length = P384_LIMBS)
    (ha : limbsBounded a) (hb : limbsBounded b)
    (hva : limbsVal a < limbsVal Q) (hvb : limbsVal b < limbsVal Q)
    (hred : (bn_add_words a b).2 ≠ 0 ∨ limbsVal Q ≤ limbsVal (bn_add_words a b).1) :
    limbsVal a + limbsVal b - limbsVal Q < limbBase ^ P384_LIMBS
    ∧ limbsVal (bn_sub_words (bn_add_words a b).1 Q).1
        = limbsVal a + limbsVal b - limbsVal Q
    ∧ (bn_sub_words (bn_add_words a b).1 Q).2 = (bn_add_words a b).2 := by
  have hla6 : a.length = 6 := hla
  have hlb6 : b.length = 6 := hlb
  obtain ⟨h1, h2, h3, h4⟩ :=
    addWithCarry_spec a b 0 (by rw [hla6, hlb6]) ha hb (by omega)
  rw [hla6, limbBase_pow6] at h1
  have hrlt : limbsVal (addWithCarry a b 0).1 < limbBase ^ (addWithCarry a b 0).1.length :=
    limbsVal_lt _ h4
  rw [h3, hla6, limbBase_pow6] at hrlt
  obtain ⟨s1, s2, s3, s4⟩ :=
    subWithBorrow_spec (addWithCarry a b 0).1 Q 0
      (by rw [h3, hla6, Q_length6]) h4 Q_bounded (by omega)
  rw [h3, hla6, limbBase_pow6, Qval_eq] at s1
  have hslt : limbsVal (subWithBorrow (addWithCarry a b 0).1 Q 0).1
      < limbBase ^ (subWithBorrow (addWithCarry a b 0).1 Q 0).1.length :=
    limbsVal_lt _ s4
  rw [s3, h3, hla6, limbBase_pow6] at hslt
  rw [Qval_eq] at hva hvb
  have hP : limbBase ^ P384_LIMBS =
      39402006196394479212279040100143613805079739270465446667948293404245721771497210611414266254884915640806627990306816 :=
    limbBase_pow6
  simp only [bn_add_words, bn_sub_words] at hred ⊢
  rcases hred with hc | hge
  · have hc1 : (addWithCarry a b 0).2 = 1 := by omega
    refine ⟨by rw [hP, Qval_eq]; omega, ?_, ?_⟩
    · rw [Qval_eq]
      omega
    · omega
  · rw [Qval_eq] at hge
    refine ⟨by rw [hP, Qval_eq]; omega, ?_, ?_⟩
    · rw [Qval_eq]
      omega
    · omega

/-- Witness for C10 at `a = Q - 1`, `b = 1`: no carry occurs but the
truncated sum equals `Q`, the subtraction is executed, and both the borrow
and the carry are zero. -/
theorem GFp_p384_elem_add_borrow_cancels_witness :
    limbsVal Q ≤ limbsVal (bn_add_words
        [0xfffffffe, 0xffffffff00000000, 0xfffffffffffffffe,
         0xffffffffffffffff, 0xffffffffffffffff, 0xffffffffffffffff]
        [1, 0, 0, 0, 0, 0]).1
    ∧ (bn_sub_words (bn_add_words
        [0xfffffffe, 0xffffffff00000000, 0xfffffffffffffffe,
         0xffffffffffffffff, 0xffffffffffffffff, 0xffffffffffffffff]
        [1, 0, 0, 0, 0, 0]).1 Q).2
      = (bn_add_words
        [0xfffffffe, 0xffffffff00000000, 0xfffffffffffffffe,
         0xffffffffffffffff, 0xffffffffffffffff, 0xffffffffffffffff]
        [1, 0, 0, 0, 0, 0]).2 :=
  ⟨by decide,
   (GFp_p384_elem_add_borrow_cancels
      [0xfffffffe, 0xffffffff00000000, 0xfffffffffffffffe,
       0xffffffffffffffff, 0xffffffffffffffff, 0xffffffffffffffff]
      [1, 0, 0, 0, 0, 0]
      (by rfl) (by rfl) (by decide) (by decide) (by decide) (by decide)
      (Or.inr (by decide))).2.2⟩


/-- C7: the compiled-in constants are correct: `Q` is the P-384 field prime
`2^384 - 2^128 - 2^96 + 2^32 - 1` and `N` is the P-384 group order, each as
a little-limb-endian `P384_LIMBS`-limb value, and `Q_N0` and `N_N0` are the
negative inverses of `Q` and `N` modulo the Montgomery word base (the limb
radix): `Q * Q_N0 ≡ -1` and `N * N_N0 ≡ -1 (mod limbBase)`. -/
theorem P384_constants_correct :
    limbsVal Q = 2 ^ 384 - 2 ^ 128 - 2 ^ 96 + 2 ^ 32 - 1
    ∧ limbsVal N =
        0xffffffffffffffffffffffffffffffffffffffffffffffffc7634d81f4372ddf581a0db248b0a77aecec196accc52973
    ∧ Q.length = P384_LIMBS
    ∧ N.length = P384_LIMBS
    ∧ (limbsVal Q * Q_N0) % limbBase = limbBase - 1
    ∧ (limbsVal N * N_N0) % limbBase = limbBase - 1 := by
  refine ⟨by decide, by decide, by rfl, by rfl, by decide, by decide⟩

/-- C6: selector correctness: for limb values `a`, `b`,
`constant_time_select_size_t` returns `a` on the all-ones (true) mask and
`b` on the all-zeros (false) mask. -/
theorem constant_time_select_correct (a b : Nat)
    (ha : a < limbBase) (hb : b < limbBase) :
    constant_time_select_size_t (limbBase - 1) a b = a
    ∧ constant_time_select_size_t 0 a b = b :=
  ⟨select_all_ones a b ha, select_zero a b hb⟩

/-- Witness for C6 at `a = 5`, `b = 7`. -/
theorem constant_time_select_correct_witness :
    5 < limbBase ∧
    constant_time_select_size_t (limbBase - 1) 5 7 = 5
    ∧ constant_time_select_size_t 0 5 7 = 7 :=
  ⟨by decide, constant_time_select_correct 5 7 (by decide) (by decide)⟩

/-- C5: `copy_conditional dest src condition` with a true (all-ones)
condition makes `dest` limb-for-limb equal to `src`, with a false
(all-zeros) condition leaves `dest` unchanged, and each limb `i` of the
result is `constant_time_select_size_t condition src[i] dest[i]`. -/
theorem copy_conditional_correct (r a : List Nat)
    (hl : r.length = a.length) (hr : limbsBounded r) (ha : limbsBounded a) :
    copy_conditional r a (limbBase - 1) = a
    ∧ copy_conditional r a 0 = r
    ∧ ∀ c i : Nat, i < r.length → i < a.length →
        (copy_conditional r a c).getD i 0
          = constant_time_select_size_t c (a.getD i 0) (r.getD i 0) :=
  ⟨copy_conditional_all_ones r a hl ha,
   copy_conditional_zero r a hl hr,
   fun c i hi hi' => copy_conditional_getD r a c i hi hi'⟩

/-- Witness for C5 on two concrete six-limb elements. -/
theorem copy_conditional_correct_witness :
    limbsBounded [10, 11, 12, 13, 14, 15]
    ∧ copy_conditional [10, 11, 12, 13, 14, 15] [20, 21, 22, 23, 24, 25] (limbBase - 1)
        = [20, 21, 22, 23, 24, 25]
    ∧ copy_conditional [10, 11, 12, 13, 14, 15] [20, 21, 22, 23, 24, 25] 0
        = [10, 11, 12, 13, 14, 15] :=
  ⟨by decide,
   (copy_conditional_correct [10, 11, 12, 13, 14, 15] [20, 21, 22, 23, 24, 25]
      (by rfl) (by decide) (by decide)).1,
   (copy_conditional_correct [10, 11, 12, 13, 14, 15] [20, 21, 22, 23, 24, 25]
      (by rfl) (by decide) (by decide)).2.1⟩

/-- C3: on six-limb Montgomery-form inputs below `Q`,
`GFp_p384_elem_mul_mont` delegates to `bn_mul_mont` with the pair
`(Q, Q_N0)` and stores the Montgomery product `a * b * R⁻¹ mod Q`, a value
strictly below `Q`; converting the result out of Montgomery form
(multiplying by `R⁻¹`) gives the plain product of the plain forms of `a`
and `b` modulo `Q`. -/
theorem GFp_p384_elem_mul_mont_correct (a b : List Nat)
    (hla : a.length = P384_LIMBS) (hlb : b.length = P384_LIMBS)
    (ha : limbsBounded a) (hb : limbsBounded b)
    (hva : limbsVal a < limbsVal Q) (hvb : limbsVal b < limbsVal Q) :
    GFp_p384_elem_mul_mont a b = bn_mul_mont a b Q Q_N0
    ∧ limbsVal (GFp_p384_elem_mul_mont a b)
        = (limbsVal a * limbsVal b * RinvQ) % limbsVal Q
    ∧ limbsVal (GFp_p384_elem_mul_mont a b) < limbsVal Q
    ∧ (limbsVal (GFp_p384_elem_mul_mont a b) * RinvQ) % limbsVal Q
        = ((limbsVal a * RinvQ) % limbsVal Q * ((limbsVal b * RinvQ) % limbsVal Q))
            % limbsVal Q := by
  obtain ⟨m1, m2, _, _⟩ :=
    bn_mul_mont_spec a b Q Q_N0 hla Q_length6 ha Q_bounded hvb Q_N0_pairing
  have hone : 1 < limbsVal Q := by rw [Qval_eq]; norm_num
  have hval : limbsVal (GFp_p384_elem_mul_mont a b)
      = (limbsVal a * limbsVal b * RinvQ) % limbsVal Q :=
    mont_eq_of_modeq (limbsVal Q) (limbBase ^ 6) RinvQ
      (limbsVal (bn_mul_mont a b Q Q_N0)) (limbsVal a * limbsVal b)
      hone m1 RinvQ_spec m2
  refine ⟨rfl, hval, m1, ?_⟩
  rw [hval]
  have e1 : ((limbsVal a * limbsVal b * RinvQ) % limbsVal Q) * RinvQ
      ≡ (limbsVal a * limbsVal b * RinvQ) * RinvQ [MOD limbsVal Q] :=
    (Nat.mod_modEq _ _).mul_right _
  have e2 : ((limbsVal a * RinvQ) % limbsVal Q) * ((limbsVal b * RinvQ) % limbsVal Q)
      ≡ (limbsVal a * RinvQ) * (limbsVal b * RinvQ) [MOD limbsVal Q] :=
    (Nat.mod_modEq _ _).mul (Nat.mod_modEq _ _)
  have e3 : (limbsVal a * RinvQ) * (limbsVal b * RinvQ)
      = (limbsVal a * limbsVal b * RinvQ) * RinvQ := by ring
  calc ((limbsVal a * limbsVal b * RinvQ) % limbsVal Q * RinvQ) % limbsVal Q
      = ((limbsVal a * limbsVal b * RinvQ) * RinvQ) % limbsVal Q := e1
    _ = ((limbsVal a * RinvQ) * (limbsVal b * RinvQ)) % limbsVal Q := by rw [e3]
    _ = ((limbsVal a * RinvQ) % limbsVal Q * ((limbsVal b * RinvQ) % limbsVal Q))
          % limbsVal Q := e2.symm

/-- Witness for C3 at `a = b =` the Montgomery form of `1` modulo `Q`. -/
theorem GFp_p384_elem_mul_mont_correct_witness :
    limbsVal [0xffffffff00000001, 0xffffffff, 0x1, 0, 0, 0] < limbsVal Q
    ∧ limbsVal (GFp_p384_elem_mul_mont
        [0xffffffff00000001, 0xffffffff, 0x1, 0, 0, 0]
        [0xffffffff00000001, 0xffffffff, 0x1, 0, 0, 0])
      = (limbsVal [0xffffffff00000001, 0xffffffff, 0x1, 0, 0, 0]
         * limbsVal [0xffffffff00000001, 0xffffffff, 0x1, 0, 0, 0]
         * RinvQ) % limbsVal Q :=
  ⟨by decide,
   (GFp_p384_elem_mul_mont_correct
      [0xffffffff00000001, 0xffffffff, 0x1, 0, 0, 0]
      [0xffffffff00000001, 0xffffffff, 0x1, 0, 0, 0]
      (by rfl) (by rfl) (by decide) (by decide) (by decide) (by decide)).2.1⟩

/-- C2: on six-limb Montgomery scalars below `N`,
`GFp_p384_scalar_mul_mont` invokes the generic Montgomery multiplication
with the modulus `N` paired with `N`'s own constant `N_N0` (not `Q`'s),
and stores `a * b * R⁻¹ mod N`, a value strictly below `N`. -/
theorem GFp_p384_scalar_mul_mont_correct (a b : List Nat)
    (hla : a.length = P384_LIMBS) (hlb : b.length = P384_LIMBS)
    (ha : limbsBounded a) (hb : limbsBounded b)
    (hva : limbsVal a < limbsVal N) (hvb : limbsVal b < limbsVal N) :
    GFp_p384_scalar_mul_mont a b = bn_mul_mont a b N N_N0
    ∧ limbsVal (GFp_p384_scalar_mul_mont a b)
        = (limbsVal a * limbsVal b * RinvN) % limbsVal N
    ∧ limbsVal (GFp_p384_scalar_mul_mont a b) < limbsVal N := by
  obtain ⟨m1, m2, _, _⟩ :=
    bn_mul_mont_spec a b N N_N0 hla N_length6 ha N_bounded hvb N_N0_pairing
  have hone : 1 < limbsVal N := by rw [Nval_eq]; norm_num
  exact ⟨rfl,
    mont_eq_of_modeq (limbsVal N) (limbBase ^ 6) RinvN
      (limbsVal (bn_mul_mont a b N N_N0)) (limbsVal a * limbsVal b)
      hone m1 RinvN_spec m2,
    m1⟩

/-- Witness for C2 at `a = b =` the Montgomery form of `1` modulo `N`. -/
theorem GFp_p384_scalar_mul_mont_correct_witness :
    limbsVal [0x1313e695333ad68d, 0xa7e5f24db74f5885, 0x389cb27e0bc8d220, 0, 0, 0]
        < limbsVal N
    ∧ limbsVal (GFp_p384_scalar_mul_mont
        [0x1313e695333ad68d, 0xa7e5f24db74f5885, 0x389cb27e0bc8d220, 0, 0, 0]
        [0x1313e695333ad68d, 0xa7e5f24db74f5885, 0x389cb27e0bc8d220, 0, 0, 0])
      = (limbsVal [0x1313e695333ad68d, 0xa7e5f24db74f5885, 0x389cb27e0bc8d220, 0, 0, 0]
         * limbsVal [0x1313e695333ad68d, 0xa7e5f24db74f5885, 0x389cb27e0bc8d220, 0, 0, 0]
         * RinvN) % limbsVal N :=
  ⟨by decide,
   (GFp_p384_scalar_mul_mont_correct
      [0x1313e695333ad68d, 0xa7e5f24db74f5885, 0x389cb27e0bc8d220, 0, 0, 0]
      [0x1313e695333ad68d, 0xa7e5f24db74f5885, 0x389cb27e0bc8d220, 0, 0, 0]
      (by rfl) (by rfl) (by decide) (by decide) (by decide) (by decide)).2.1⟩


/-- A flat memory of limb-sized cells, addressed by limb index.  Used to
reason about the in-memory behaviour of `GFp_p384_elem_add` (the C function
writes through the pointer `r` while reading through `a` and `b`, which may
alias `r`). -/
abbrev Mem : Type := Nat → Nat

/-- Store one limb at an address. -/
def writeMem (mem : Mem) (addr v : Nat) : Mem :=
  fun x => if x = addr then v else mem x

/-- Read `k` consecutive limbs starting at `base`. -/
def readLimbs (mem : Mem) : Nat → Nat → List Nat
  | _, 0 => []
  | base, k + 1 => mem base :: readLimbs mem (base + 1) k

/-- Store a list of limbs at consecutive addresses starting at `base`. -/
def writeLimbs : Mem → Nat → List Nat → Mem
  | mem, _, [] => mem
  | mem, base, v :: vs => writeLimbs (writeMem mem base v) (base + 1) vs

/-- Modelled from the spec: the `bn_add_words` loop acting directly on
memory through the three pointers, one iteration per limb in increasing
address order; in each iteration the two source limbs are read (and the
carry consumed) before the destination limb is written, as the spec notes:
result is written only after inputs are fully consumed in the addition
step. -/
def addLoopMem : Mem → Nat → Nat → Nat → Nat → Nat → Mem × Nat
  | mem, _, _, _, 0, c => (mem, c)
  | mem, rA, aA, bA, k + 1, c =>
      addLoopMem (writeMem mem rA ((mem aA + mem bA + c) % limbBase))
        (rA + 1) (aA + 1) (bA + 1) k ((mem aA + mem bA + c) / limbBase)

/-- `GFp_p384_elem_add` acting on memory through the three pointers `rB`,
`aB`, `bB`: the addition loop runs in place, then the comparison against
`Q` and the conditional subtraction operate on (and rewrite) the `r`
region. -/
def GFp_p384_elem_add_mem (mem : Mem) (rB aB bB : Nat) : Mem :=
  let s := addLoopMem mem rB aB bB P384_LIMBS 0
  let r := readLimbs s.1 rB P384_LIMBS
  if s.2 = 0 ∧ bn_cmp_words r Q < 0 then s.1
  else writeLimbs s.1 rB (bn_sub_words r Q).1

lemma readLimbs_length (mem : Mem) : ∀ (k base : Nat),
    (readLimbs mem base k).length = k := by
  intro k
  induction k with
  | zero => intro base; rfl
  | succ k ih =>
    intro base
    simp [readLimbs, ih]

lemma readLimbs_writeMem (mem : Mem) (addr v : Nat) : ∀ (k base : Nat),
    (∀ j, j < k → base + j ≠ addr) →
    readLimbs (writeMem mem addr v) base k = readLimbs mem base k := by
  intro k
  induction k with
  | zero => intro base _; rfl
  | succ k ih =>
    intro base hne
    simp only [readLimbs]
    have hhead : writeMem mem addr v base = mem base := by
      simp only [writeMem]
      rw [if_neg]
      have := hne 0 (by omega)
      omega
    rw [hhead, ih (base + 1) (fun j hj => by
      have := hne (j + 1) (by omega)
      omega)]

lemma writeLimbs_frame : ∀ (vs : List Nat) (mem : Mem) (base x : Nat),
    (∀ i, i < vs.length → x ≠ base + i) → writeLimbs mem base vs x = mem x := by
  intro vs
  induction vs with
  | nil => intro mem base x _; rfl
  | cons v vs ih =>
    intro mem base x hx
    simp only [writeLimbs]
    rw [ih (writeMem mem base v) (base + 1) x (fun i hi => by
      have := hx (i + 1) (by simpa using Nat.succ_lt_succ hi)
      omega)]
    simp only [writeMem]
    rw [if_neg]
    have := hx 0 (by simp)
    omega

lemma readLimbs_writeLimbs : ∀ (vs : List Nat) (mem : Mem) (base : Nat),
    readLimbs (writeLimbs mem base vs) base vs.length = vs := by
  intro vs
  induction vs with
  | nil => intro mem base; rfl
  | cons v vs ih =>
    intro mem base
    simp only [writeLimbs, List.length_cons, readLimbs]
    have hhead : writeLimbs (writeMem mem base v) (base + 1) vs base = v := by
      rw [writeLimbs_frame vs (writeMem mem base v) (base + 1) base
        (fun i _ => by omega)]
      simp [writeMem]
    rw [hhead, ih (writeMem mem base v) (base + 1)]

lemma addLoopMem_spec : ∀ (k : Nat) (mem : Mem) (rA aA bA c : Nat),
    (∀ j i : Nat, j < k → i < j → aA + j ≠ rA + i ∧ bA + j ≠ rA + i) →
    addLoopMem mem rA aA bA k c
      = (writeLimbs mem rA
           (addWithCarry (readLimbs mem aA k) (readLimbs mem bA k) c).1,
         (addWithCarry (readLimbs mem aA k) (readLimbs mem bA k) c).2) := by
  intro k
  induction k with
  | zero => intro mem rA aA bA c _; rfl
  | succ k ih =>
    intro mem rA aA bA c hrw
    have hreadA : readLimbs
        (writeMem mem rA ((mem aA + mem bA + c) % limbBase)) (aA + 1) k
        = readLimbs mem (aA + 1) k := by
      refine readLimbs_writeMem mem rA _ k (aA + 1) (fun j hj => ?_)
      have := (hrw (j + 1) 0 (by omega) (by omega)).1
      omega
    have hreadB : readLimbs
        (writeMem mem rA ((mem aA + mem bA + c) % limbBase)) (bA + 1) k
        = readLimbs mem (bA + 1) k := by
      refine readLimbs_writeMem mem rA _ k (bA + 1) (fun j hj => ?_)
      have := (hrw (j + 1) 0 (by omega) (by omega)).2
      omega
    have hrw' : ∀ j i : Nat, j < k → i < j →
        (aA + 1) + j ≠ (rA + 1) + i ∧ (bA + 1) + j ≠ (rA + 1) + i := by
      intro j i hj hi
      have := hrw (j + 1) (i + 1) (by omega) (by omega)
      omega
    have hstep : addLoopMem mem rA aA bA (k + 1) c
        = addLoopMem (writeMem mem rA ((mem aA + mem bA + c) % limbBase))
            (rA + 1) (aA + 1) (bA + 1) k ((mem aA + mem bA + c) / limbBase) := rfl
    rw [hstep, ih _ (rA + 1) (aA + 1) (bA + 1) _ hrw', hreadA, hreadB]
    rfl

lemma addLoopMem_frame : ∀ (k : Nat) (mem : Mem) (rA aA bA c x : Nat),
    (∀ i, i < k → x ≠ rA + i) → (addLoopMem mem rA aA bA k c).1 x = mem x := by
  intro k
  induction k with
  | zero => intro mem rA aA bA c x _; rfl
  | succ k ih =>
    intro mem rA aA bA c x hx
    have hstep : addLoopMem mem rA aA bA (k + 1) c
        = addLoopMem (writeMem mem rA ((mem aA + mem bA + c) % limbBase))
            (rA + 1) (aA + 1) (bA + 1) k ((mem aA + mem bA + c) / limbBase) := rfl
    rw [hstep, ih _ (rA + 1) (aA + 1) (bA + 1) _ x (fun i hi => by
      have := hx (i + 1) (by omega)
      omega)]
    simp only [writeMem]
    rw [if_neg]
    have := hx 0 (by omega)
    omega


/-- In-memory `GFp_p384_elem_add` agrees with the pure function whenever no
source limb is read after the destination limb at the same address was
written (which holds both when the regions are disjoint and when a source
pointer equals the destination pointer), and it writes nothing outside the
six destination cells. -/
lemma elem_add_mem_correct (mem : Mem) (rB aB bB : Nat)
    (hrw : ∀ j i : Nat, j < 6 → i < j → aB + j ≠ rB + i ∧ bB + j ≠ rB + i)
    (ha : limbsBounded (readLimbs mem aB 6)) (hb : limbsBounded (readLimbs mem bB 6)) :
    readLimbs (GFp_p384_elem_add_mem mem rB aB bB) rB 6
      = GFp_p384_elem_add (readLimbs mem aB 6) (readLimbs mem bB 6)
    ∧ ∀ x, (∀ i, i < 6 → x ≠ rB + i) →
        GFp_p384_elem_add_mem mem rB aB bB x = mem x := by
  have hloop := addLoopMem_spec 6 mem rB aB bB 0 hrw
  obtain ⟨p1, p2, p3, p4⟩ :=
    addWithCarry_spec (readLimbs mem aB 6) (readLimbs mem bB 6) 0
      (by rw [readLimbs_length, readLimbs_length]) ha hb (by omega)
  rw [readLimbs_length] at p3
  obtain ⟨s1, s2, s3, s4⟩ :=
    subWithBorrow_spec (addWithCarry (readLimbs mem aB 6) (readLimbs mem bB 6) 0).1 Q 0
      (by rw [p3, Q_length6]) p4 Q_bounded (by omega)
  rw [p3] at s3
  have hr : readLimbs
      (writeLimbs mem rB (addWithCarry (readLimbs mem aB 6) (readLimbs mem bB 6) 0).1)
      rB 6
      = (addWithCarry (readLimbs mem aB 6) (readLimbs mem bB 6) 0).1 := by
    rw [← p3]
    exact readLimbs_writeLimbs _ mem rB
  have hrsub : readLimbs
      (writeLimbs
        (writeLimbs mem rB (addWithCarry (readLimbs mem aB 6) (readLimbs mem bB 6) 0).1)
        rB
        (subWithBorrow (addWithCarry (readLimbs mem aB 6) (readLimbs mem bB 6) 0).1 Q 0).1)
      rB 6
      = (subWithBorrow (addWithCarry (readLimbs mem aB 6) (readLimbs mem bB 6) 0).1 Q 0).1 := by
    rw [← s3]
    exact readLimbs_writeLimbs _ _ rB
  simp only [GFp_p384_elem_add_mem, GFp_p384_elem_add, bn_add_words, bn_sub_words,
    P384_LIMBS]
  rw [hloop, hr]
  constructor
  · split_ifs with hc
    · exact hr
    · exact hrsub
  · intro x hx
    split_ifs with hc
    · exact writeLimbs_frame _ mem rB x (fun i hi => hx i (by rw [← p3]; exact hi))
    · rw [writeLimbs_frame _ _ rB x (fun i hi => hx i (by rw [← s3]; exact hi))]
      exact writeLimbs_frame _ mem rB x (fun i hi => hx i (by rw [← p3]; exact hi))


/-- C9: for six-limb inputs below `Q`, the in-memory `GFp_p384_elem_add`
(i) leaves both input regions `a` and `b` untouched and stores the correct
`(a + b) mod Q` when the destination region is disjoint from them, and
produces the same correct result when the destination aliases (ii) the `a`
region or (iii) the `b` region. -/
theorem GFp_p384_elem_add_aliasing (mem : Mem) (rB aB bB : Nat)
    (ha : limbsBounded (readLimbs mem aB P384_LIMBS))
    (hb : limbsBounded (readLimbs mem bB P384_LIMBS))
    (hva : limbsVal (readLimbs mem aB P384_LIMBS) < limbsVal Q)
    (hvb : limbsVal (readLimbs mem bB P384_LIMBS) < limbsVal Q) :
    ((∀ i, i < P384_LIMBS → ∀ j, j < P384_LIMBS → rB + i ≠ aB + j ∧ rB + i ≠ bB + j) →
      (∀ j, j < P384_LIMBS →
        GFp_p384_elem_add_mem mem rB aB bB (aB + j) = mem (aB + j)
        ∧ GFp_p384_elem_add_mem mem rB aB bB (bB + j) = mem (bB + j))
      ∧ limbsVal (readLimbs (GFp_p384_elem_add_mem mem rB aB bB) rB P384_LIMBS)
          = (limbsVal (readLimbs mem aB P384_LIMBS)
             + limbsVal (readLimbs mem bB P384_LIMBS)) % limbsVal Q)
    ∧ (aB = rB →
        (bB = rB ∨ ∀ i, i < P384_LIMBS → ∀ j, j < P384_LIMBS → rB + i ≠ bB + j) →
        limbsVal (readLimbs (GFp_p384_elem_add_mem mem rB aB bB) rB P384_LIMBS)
          = (limbsVal (readLimbs mem aB P384_LIMBS)
             + limbsVal (readLimbs mem bB P384_LIMBS)) % limbsVal Q)
    ∧ (bB = rB →
        (aB = rB ∨ ∀ i, i < P384_LIMBS → ∀ j, j < P384_LIMBS → rB + i ≠ aB + j) →
        limbsVal (readLimbs (GFp_p384_elem_add_mem mem rB aB bB) rB P384_LIMBS)
          = (limbsVal (readLimbs mem aB P384_LIMBS)
             + limbsVal (readLimbs mem bB P384_LIMBS)) % limbsVal Q) := by
  simp only [P384_LIMBS] at ha hb hva hvb ⊢
  have key : ∀ hrw : (∀ j i : Nat, j < 6 → i < j →
        aB + j ≠ rB + i ∧ bB + j ≠ rB + i),
      limbsVal (readLimbs (GFp_p384_elem_add_mem mem rB aB bB) rB 6)
        = (limbsVal (readLimbs mem aB 6) + limbsVal (readLimbs mem bB 6))
            % limbsVal Q := by
    intro hrw
    rw [(elem_add_mem_correct mem rB aB bB hrw ha hb).1]
    exact (elem_add_correct _ _ (readLimbs_length mem 6 aB) (readLimbs_length mem 6 bB)
      ha hb hva hvb).1
  refine ⟨?_, ?_, ?_⟩
  · intro h
    have hrw : ∀ j i : Nat, j < 6 → i < j → aB + j ≠ rB + i ∧ bB + j ≠ rB + i := by
      intro j i hj hi
      have h1 := (h i (by omega) j (by omega)).1
      have h2 := (h i (by omega) j (by omega)).2
      omega
    refine ⟨?_, key hrw⟩
    intro j hj
    constructor
    · exact (elem_add_mem_correct mem rB aB bB hrw ha hb).2 (aB + j)
        (fun i hi => by have := (h i (by omega) j (by omega)).1; omega)
    · exact (elem_add_mem_correct mem rB aB bB hrw ha hb).2 (bB + j)
        (fun i hi => by have := (h i (by omega) j (by omega)).2; omega)
  · intro haB hbB
    have hrw : ∀ j i : Nat, j < 6 → i < j → aB + j ≠ rB + i ∧ bB + j ≠ rB + i := by
      intro j i hj hi
      rcases hbB with hbr | hdisj
      · omega
      · have := hdisj i (by omega) j (by omega)
        omega
    exact key hrw
  · intro hbB haB
    have hrw : ∀ j i : Nat, j < 6 → i < j → aB + j ≠ rB + i ∧ bB + j ≠ rB + i := by
      intro j i hj hi
      rcases haB with har | hdisj
      · omega
      · have := hdisj i (by omega) j (by omega)
        omega
    exact key hrw

/-- Witness for C9: a disjoint layout (`r` at 0, `a = Q - 1` at 6, `b = 1`
at 12) and an aliased layout (`r = a = Q - 1` at 0, `b = 1` at 6); in both
cases the destination region receives `(Q - 1 + 1) mod Q = 0`. -/
theorem GFp_p384_elem_add_aliasing_witness :
    limbsVal (readLimbs
        (fun x => List.getD
          [0, 0, 0, 0, 0, 0,
           0xfffffffe, 0xffffffff00000000, 0xfffffffffffffffe,
           0xffffffffffffffff, 0xffffffffffffffff, 0xffffffffffffffff,
           1, 0, 0, 0, 0, 0] x 0) 6 P384_LIMBS) < limbsVal Q
    ∧ limbsVal (readLimbs (GFp_p384_elem_add_mem
        (fun x => List.getD
          [0, 0, 0, 0, 0, 0,
           0xfffffffe, 0xffffffff00000000, 0xfffffffffffffffe,
           0xffffffffffffffff, 0xffffffffffffffff, 0xffffffffffffffff,
           1, 0, 0, 0, 0, 0] x 0) 0 6 12) 0 P384_LIMBS)
      = (limbsVal (readLimbs
          (fun x => List.getD
            [0, 0, 0, 0, 0, 0,
             0xfffffffe, 0xffffffff00000000, 0xfffffffffffffffe,
             0xffffffffffffffff, 0xffffffffffffffff, 0xffffffffffffffff,
             1, 0, 0, 0, 0, 0] x 0) 6 P384_LIMBS)
         + limbsVal (readLimbs
          (fun x => List.getD
            [0, 0, 0, 0, 0, 0,
             0xfffffffe, 0xffffffff00000000, 0xfffffffffffffffe,
             0xffffffffffffffff, 0xffffffffffffffff, 0xffffffffffffffff,
             1, 0, 0, 0, 0, 0] x 0) 12 P384_LIMBS)) % limbsVal Q
    ∧ limbsVal (readLimbs (GFp_p384_elem_add_mem
        (fun x => List.getD
          [0xfffffffe, 0xffffffff00000000, 0xfffffffffffffffe,
           0xffffffffffffffff, 0xffffffffffffffff, 0xffffffffffffffff,
           1, 0, 0, 0, 0, 0] x 0) 0 0 6) 0 P384_LIMBS)
      = (limbsVal (readLimbs
          (fun x => List.getD
            [0xfffffffe, 0xffffffff00000000, 0xfffffffffffffffe,
             0xffffffffffffffff, 0xffffffffffffffff, 0xffffffffffffffff,
             1, 0, 0, 0, 0, 0] x 0) 0 P384_LIMBS)
         + limbsVal (readLimbs
          (fun x => List.getD
            [0xfffffffe, 0xffffffff00000000, 0xfffffffffffffffe,
             0xffffffffffffffff, 0xffffffffffffffff, 0xffffffffffffffff,
             1, 0, 0, 0, 0, 0] x 0) 6 P384_LIMBS)) % limbsVal Q :=
  ⟨by decide,
   ((GFp_p384_elem_add_aliasing
      (fun x => List.getD
        [0, 0, 0, 0, 0, 0,
         0xfffffffe, 0xffffffff00000000, 0xfffffffffffffffe,
         0xffffffffffffffff, 0xffffffffffffffff, 0xffffffffffffffff,
         1, 0, 0, 0, 0, 0] x 0) 0 6 12
      (by decide) (by decide) (by decide) (by decide)).1 (by decide)).2,
   (GFp_p384_elem_add_aliasing
      (fun x => List.getD
        [0xfffffffe, 0xffffffff00000000, 0xfffffffffffffffe,
         0xffffffffffffffff, 0xffffffffffffffff, 0xffffffffffffffff,
         1, 0, 0, 0, 0, 0] x 0) 0 0 6
      (by decide) (by decide) (by decide) (by decide)).2.1 rfl (Or.inr (by decide))⟩

end GFp384
